import Mathlib

/-!
Verification of the stub-generation pipeline of `src/io/stub_generator.py`.

The Python module flattens a handler registry into a normalized
suffix table (`_collect_suffix_info`), resolves a return type per handler
(`_get_handler_return_type`), groups the resolved types by modality
(`_group_by_modality`), and renders a declaration file
(`_generate_modality_overload`, `_generate_stub_content`).

The embedding below models Python dicts as insertion-ordered association
lists with in-place update, Python sets of strings as duplicate-free lists
ordered by first insertion (their iteration order is arbitrary in Python;
order-independence of the rendered output is proved where it matters), and
Python string comparison as code-point lexicographic order.
-/

namespace StubGen

/-- A registered handler class: its stable class name (`__name__`) and the
optional explicit `return_type` attribute carried by the class. -/
structure Handler where
  name : String
  return_type : Option String
deriving DecidableEq

/-- One value of the table built by `_collect_suffix_info`: handler,
resolved return type, owning modality and the informational collision flag. -/
structure SuffixEntry where
  handler : Handler
  return_type : String
  modality : String
  is_collision : Bool
deriving DecidableEq

/-- A per-modality registry record.  `base_handler` models the record entry
retrieved as `registry.get("BaseIO")`, `base_suffixes` the collection behind
`registry.get("base_suffixes", [])`, and `custom` the insertion-ordered
mapping `registry.get("Custom", \x7b\x7d)` whose values may be `None`
(modelled as `none`). -/
structure ModalityRecord where
  base_handler : Option Handler
  base_suffixes : List String
  custom : List (String × Option Handler)
deriving DecidableEq

/-- The registry: modality name to record, in iteration order. -/
abbrev Registry := List (String × ModalityRecord)

/-- The suffix table: an insertion-ordered dict keyed by normalized suffix. -/
abbrev SuffixTable := List (String × SuffixEntry)

/-- Python dict lookup `d.get(k)` on an insertion-ordered association list
whose keys are pairwise distinct. -/
def dictLookup {α : Type} : List (String × α) → String → Option α
  | [], _ => none
  | p :: ps, k => if p.1 = k then some p.2 else dictLookup ps k

/-- Python dict membership test `k in d`. -/
def dictHasKey {α : Type} (d : List (String × α)) (k : String) : Bool :=
  d.any (fun p => p.1 = k)

/-- Python dict update `d[k] = v`: an existing key keeps its position and
gets the new value, a fresh key is appended at the end. -/
def dictInsert {α : Type} : List (String × α) → String → α → List (String × α)
  | [], k, v => [(k, v)]
  | p :: ps, k, v => if p.1 = k then (k, v) :: ps else p :: dictInsert ps k v

/-- `DEFAULT_RETURN_TYPES`: handler class name to return-type string. -/
def DEFAULT_RETURN_TYPES : List (String × String) :=
  [("BaseImage", "PIL.Image.Image"),
   ("BaseText", "str"),
   ("JsonText", "dict[str, Any]"),
   ("YamlText", "dict[str, Any]"),
   ("BaseVideo", "torchvision.io.VideoReader")]

/-- `TYPE_IMPORTS`: return type to required import line. -/
def TYPE_IMPORTS : List (String × String) :=
  [("PIL.Image.Image", "from PIL.Image import Image as PILImage"),
   ("torchvision.io.VideoReader", "from torchvision.io import VideoReader")]

/-- `TYPE_STUB_NAMES`: return type to the short alias used in the stub. -/
def TYPE_STUB_NAMES : List (String × String) :=
  [("PIL.Image.Image", "PILImage"),
   ("torchvision.io.VideoReader", "VideoReader")]

/-- `_get_handler_return_type`: the explicit `return_type` attribute if the
class carries one, else the `DEFAULT_RETURN_TYPES` entry for the class name,
else `"Any"`. -/
def get_handler_return_type (h : Handler) : String :=
  match h.return_type with
  | some t => t
  | none => (dictLookup DEFAULT_RETURN_TYPES h.name).getD "Any"

/-- Drop every leading dot of a character list (Python `lstrip(".")`). -/
def stripLeadingDots : List Char → List Char
  | [] => []
  | c :: cs => if c = '.' then stripLeadingDots cs else c :: cs

/-- `suffix.lstrip(".").lower()`: the normalized form of a suffix.
`Char.toLower` models `str.lower` (ASCII range, which covers suffixes). -/
def normalizeSuffix (s : String) : String :=
  String.mk ((stripLeadingDots s.data).map Char.toLower)

/-- The value stored by `_collect_suffix_info` for handler `h` at normalized
suffix `sl` under modality `md`, given the collision set `cs`. -/
def mkEntry (cs : List String) (md : String) (h : Handler) (sl : String) : SuffixEntry :=
  { handler := h
    return_type := get_handler_return_type h
    modality := md
    is_collision := cs.contains sl }

/-- One iteration of the outer loop of `_collect_suffix_info`: first the
base-suffix loop (guarded by a truthy `BaseIO` record entry and skipping a
normalized suffix that occurs among the raw custom keys), then the custom
loop (skipping falsy handlers, overwriting unconditionally). -/
def processModality (cs : List String) (tbl : SuffixTable) (md : String)
    (r : ModalityRecord) : SuffixTable :=
  let tbl1 :=
    match r.base_handler with
    | some b =>
        r.base_suffixes.foldl (fun t s =>
          let sl := normalizeSuffix s
          if dictHasKey r.custom sl then t
          else dictInsert t sl (mkEntry cs md b sl)) tbl
    | none => tbl
  r.custom.foldl (fun t p =>
    match p.2 with
    | some h => dictInsert t (normalizeSuffix p.1) (mkEntry cs md h (normalizeSuffix p.1))
    | none => t) tbl1

/-- `_collect_suffix_info`: fold the registry records, in iteration order,
into the suffix table, starting from the empty dict. -/
def collect_suffix_info (cs : List String) (reg : Registry) : SuffixTable :=
  reg.foldl (fun t p => processModality cs t p.1 p.2) []

/-- Python `set.add` on the list model of a set of strings. -/
def setAdd (l : List String) (x : String) : List String :=
  if l.contains x then l else l ++ [x]

/-- `_group_by_modality`: accumulate, per modality, the set of resolved
return types of its suffix entries. -/
def group_by_modality (info : SuffixTable) : List (String × List String) :=
  info.foldl (fun g p =>
    if dictHasKey g p.2.modality then
      g.map (fun q => if q.1 = p.2.modality then (q.1, setAdd q.2 p.2.return_type) else q)
    else g ++ [(p.2.modality, [p.2.return_type])]) []

/-- Alias substitution `TYPE_STUB_NAMES.get(t, t)`. -/
def stubName (t : String) : String := (dictLookup TYPE_STUB_NAMES t).getD t

/-- Python string comparison: lexicographic by code point, a strict prefix
preceding every extension of it. -/
def lexLe : List Char → List Char → Bool
  | [], _ => true
  | _ :: _, [] => false
  | a :: as, b :: bs => if a < b then true else if a = b then lexLe as bs else false

/-- Python `a <= b` on strings. -/
def strLe (a b : String) : Bool := lexLe a.data b.data

/-- Python `sorted` on a list of strings. -/
def sortStrings (l : List String) : List String :=
  List.insertionSort (fun a b => strLe a b = true) l

/-- The return-type expression built by `_generate_modality_overload`: a
single resolved type is alias-substituted and used bare, otherwise the
types are sorted and joined into a `Union[...]` expression. -/
def buildStubType (return_types : List String) : String :=
  match return_types with
  | [t] => stubName t
  | ts => "Union[" ++ String.intercalate ", " ((sortStrings ts).map stubName) ++ "]"

/-- `_generate_modality_overload`: the overload block emitted for one
modality. -/
def generate_modality_overload (md : String) (return_types : List String) : List String :=
  ["    # modality=\"" ++ md ++ "\"",
   "    @overload",
   "    def load(",
   "        self,",
   "        path: Union[str, PathLike[str]],",
   "        modality: Literal[\"" ++ md ++ "\"],",
   "        collision_dict: Optional[dict[str, str]] = None,",
   "        **kwargs: Any,",
   "    ) -> " ++ buildStubType return_types ++ ": ...",
   ""]

/-- The fixed file-header lines of `_generate_stub_content`. -/
def headerLines : List String :=
  ["\"\"\"",
   "Auto-generated stub file for IO.load() type hints.",
   "",
   "Generated by: python -m CLTrainingFramework.io",
   "Do not edit manually - regenerate after registering new handlers.",
   "",
   "Usage:",
   "    image = IO.load(\"test.png\", modality=\"Image\")  # -> PILImage",
   "    text = IO.load(\"file.txt\", modality=\"Text\")    # -> str",
   "    data = IO.load(\"config.json\", modality=\"Text\") # -> Union[str, dict]",
   "    video = IO.load(\"clip.mp4\", modality=\"Video\")  # -> VideoReader",
   "\"\"\"",
   "",
   "from typing import overload, Union, Optional, Any, Literal",
   "from os import PathLike"]

/-- The fixed lines between the imports and the overload blocks. -/
def midLines : List String :=
  ["",
   "",
   "class IO:",
   "    \"\"\"",
   "    IO Router with type inference based on modality parameter.",
   "",
   "    When modality is specified, returns the corresponding type.",
   "    Without modality, returns Any (suffix-based auto-detection at runtime).",
   "    \"\"\"",
   "",
   "    def __init__(self, modality: Optional[str] = None) -> None: ...",
   ""]

/-- The fixed trailing lines: fallback overload, implementation signature
and the remaining method signatures. -/
def tailLines : List String :=
  ["    # Fallback when modality is not specified (auto-detection)",
   "    @overload",
   "    def load(",
   "        self,",
   "        path: Union[str, PathLike[str]],",
   "        modality: None = None,",
   "        collision_dict: Optional[dict[str, str]] = None,",
   "        **kwargs: Any,",
   "    ) -> Any: ...",
   "",
   "    # Implementation signature",
   "    def load(",
   "        self,",
   "        path: Union[str, PathLike[str]],",
   "        modality: Optional[str] = None,",
   "        collision_dict: Optional[dict[str, str]] = None,",
   "        **kwargs: Any,",
   "    ) -> Any: ...",
   "",
   "    def write(",
   "        self,",
   "        path: Union[str, PathLike[str]],",
   "        data: Any,",
   "        modality: Optional[str] = None,",
   "        collision_dict: Optional[dict[str, str]] = None,",
   "        **kwargs: Any,",
   "    ) -> None: ...",
   "",
   "    def get_io(",
   "        self,",
   "        path: Union[str, PathLike[str]],",
   "        modality: Optional[str] = None,",
   "        collision_dict: Optional[dict[str, str]] = None,",
   "    ) -> Any: ...",
   "",
   "    def delete_cache(self, name: str) -> None: ...",
   ""]

/-- The fixed priority order of the well-known modalities. -/
def MODALITY_ORDER : List String := ["Image", "Text", "Video"]

/-- The overload blocks: the well-known modalities first, in priority order,
then the remaining modalities in grouping iteration order. -/
def overloadLines (groups : List (String × List String)) : List String :=
  (MODALITY_ORDER.foldl (fun acc m =>
    match dictLookup groups m with
    | some ts => acc ++ generate_modality_overload m ts
    | none => acc) [])
  ++ groups.foldl (fun acc p =>
      if MODALITY_ORDER.contains p.1 then acc else acc ++ generate_modality_overload p.1 p.2) []

/-- The union, over all modalities, of the grouped return-type sets. -/
def allReturnTypes (groups : List (String × List String)) : List String :=
  groups.foldl (fun acc p => p.2.foldl setAdd acc) []

/-- The sorted, deduplicated import lines required by the return types that
occur in some group; a type without a `TYPE_IMPORTS` entry contributes
nothing. -/
def importsNeeded (groups : List (String × List String)) : List String :=
  sortStrings ((allReturnTypes groups).foldl (fun acc t =>
    match dictLookup TYPE_IMPORTS t with
    | some imp => setAdd acc imp
    | none => acc) [])

/-- All lines of the stub file, in emission order. -/
def stubLines (groups : List (String × List String)) : List String :=
  headerLines ++ importsNeeded groups ++ midLines ++ overloadLines groups ++ tailLines

/-- The rendered text for given modality groups. -/
def renderStubFromGroups (groups : List (String × List String)) : String :=
  String.intercalate "\n" (stubLines groups)

/-- `_generate_stub_content`: group the suffix table by modality and render
the full stub text. -/
def generate_stub_content (info : SuffixTable) : String :=
  renderStubFromGroups (group_by_modality info)

/-! ### Association-list dictionary lemmas -/

/-- Strict left-biased choice on options. -/
def optOr {α : Type} : Option α → Option α → Option α
  | some x, _ => some x
  | none, b => b

theorem dictLookup_dictInsert {α : Type} (d : List (String × α)) (k u : String) (v : α) :
    dictLookup (dictInsert d k v) u = if u = k then some v else dictLookup d u := by
  induction d with
  | nil =>
      simp only [dictInsert, dictLookup]
      by_cases h : k = u
      · rw [if_pos h, if_pos h.symm]
      · rw [if_neg h, if_neg (fun h2 => h h2.symm)]
  | cons p ps ih =>
      simp only [dictInsert]
      by_cases hpk : p.1 = k
      · rw [if_pos hpk]
        simp only [dictLookup]
        by_cases hku : k = u
        · rw [if_pos hku, if_pos hku.symm]
        · have hpu : ¬ p.1 = u := fun h2 => hku (hpk ▸ h2)
          rw [if_neg hku, if_neg (fun h2 => hku h2.symm), if_neg hpu]
      · rw [if_neg hpk]
        simp only [dictLookup]
        by_cases hpu : p.1 = u
        · have huk : ¬ u = k := fun h => hpk (hpu.trans h)
          rw [if_pos hpu, if_neg huk, if_pos hpu]
        · rw [if_neg hpu, if_neg hpu, ih]

theorem mem_dictInsert {α : Type} (d : List (String × α)) (k : String) (v : α)
    (p : String × α) (hp : p ∈ dictInsert d k v) : p = (k, v) ∨ p ∈ d := by
  induction d with
  | nil =>
      simp [dictInsert] at hp
      exact Or.inl hp
  | cons q qs ih =>
      by_cases hq : q.1 = k
      · simp only [dictInsert, if_pos hq, List.mem_cons] at hp
        rcases hp with h | h
        · exact Or.inl h
        · exact Or.inr (List.mem_cons_of_mem q h)
      · simp only [dictInsert, if_neg hq, List.mem_cons] at hp
        rcases hp with h | h
        · exact Or.inr (h ▸ List.mem_cons_self q qs)
        · rcases ih h with h2 | h2
          · exact Or.inl h2
          · exact Or.inr (List.mem_cons_of_mem q h2)

/-- The keys of a dict are pairwise distinct. -/
def KeysNodup {α : Type} (d : List (String × α)) : Prop :=
  (d.map Prod.fst).Nodup

theorem keysNodup_dictInsert {α : Type} (d : List (String × α)) (k : String) (v : α)
    (hd : KeysNodup d) : KeysNodup (dictInsert d k v) := by
  induction d with
  | nil => simp [dictInsert, KeysNodup]
  | cons q qs ih =>
      unfold KeysNodup at hd
      simp only [List.map_cons, List.nodup_cons] at hd
      by_cases hq : q.1 = k
      · unfold KeysNodup
        simp only [dictInsert, if_pos hq, List.map_cons, List.nodup_cons]
        exact ⟨hq ▸ hd.1, hd.2⟩
      · unfold KeysNodup at ih ⊢
        simp only [dictInsert, if_neg hq, List.map_cons, List.nodup_cons]
        refine ⟨?_, ih hd.2⟩
        intro hmem
        rcases List.mem_map.mp hmem with ⟨p, hp, hfst⟩
        rcases mem_dictInsert qs k v p hp with h | h
        · exact hq (by rw [← hfst, h])
        · exact hd.1 (hfst ▸ List.mem_map_of_mem Prod.fst h)

/-- Number of entries of the table carrying key `u`. -/
def countKey (u : String) (d : SuffixTable) : Nat :=
  (d.filter (fun p => p.1 = u)).length

theorem countKey_eq_one (u : String) (d : SuffixTable) (hd : KeysNodup d)
    (e : SuffixEntry) (he : dictLookup d u = some e) : countKey u d = 1 := by
  induction d with
  | nil => simp [dictLookup] at he
  | cons q qs ih =>
      unfold KeysNodup at hd
      simp only [List.map_cons, List.nodup_cons] at hd
      unfold countKey
      rw [List.filter_cons]
      by_cases hq : q.1 = u
      · rw [if_pos (by simp [hq])]
        have hnil : qs.filter (fun p => decide (p.1 = u)) = [] := by
          rw [List.filter_eq_nil_iff]
          intro p hp hpu
          simp only [decide_eq_true_eq] at hpu
          exact hd.1 ((hq.trans hpu.symm) ▸ List.mem_map_of_mem Prod.fst hp)
        simp [hnil]
      · rw [if_neg (by simp [hq])]
        simp only [dictLookup, if_neg hq] at he
        exact ih hd.2 he

theorem dictHasKey_iff {α : Type} (d : List (String × α)) (k : String) :
    dictHasKey d k = true ↔ k ∈ d.map Prod.fst := by
  unfold dictHasKey
  rw [List.any_eq_true]
  constructor
  · rintro ⟨p, hp, hk⟩
    simp only [decide_eq_true_eq] at hk
    exact hk ▸ List.mem_map_of_mem Prod.fst hp
  · intro h
    rcases List.mem_map.mp h with ⟨p, hp, hfst⟩
    exact ⟨p, hp, by simp [hfst]⟩

/-! ### The write-sequence view of `_collect_suffix_info`

Each modality record contributes a sequence of dict writes that does not
depend on the table built so far; the table is the left fold of all writes.
This view makes the last-write-wins behaviour explicit. -/

/-- One dict write. -/
def insTable (t : SuffixTable) (p : String × SuffixEntry) : SuffixTable :=
  dictInsert t p.1 p.2

/-- The writes performed by the base-suffix loop of one modality, given the
custom mapping `c`, the base handler `b` and the base suffixes `l`. -/
def baseWrites (cs : List String) (md : String) (c : List (String × Option Handler))
    (b : Handler) (l : List String) : List (String × SuffixEntry) :=
  l.filterMap (fun s =>
    if dictHasKey c (normalizeSuffix s) then none
    else some (normalizeSuffix s, mkEntry cs md b (normalizeSuffix s)))

/-- The writes performed by the custom-handler loop of one modality. -/
def customWrites (cs : List String) (md : String)
    (c : List (String × Option Handler)) : List (String × SuffixEntry) :=
  c.filterMap (fun p =>
    p.2.map (fun h => (normalizeSuffix p.1, mkEntry cs md h (normalizeSuffix p.1))))

/-- All writes of one modality, in execution order. -/
def modalityWrites (cs : List String) (md : String) (r : ModalityRecord) :
    List (String × SuffixEntry) :=
  (match r.base_handler with
   | some b => baseWrites cs md r.custom b r.base_suffixes
   | none => []) ++ customWrites cs md r.custom

theorem foldl_base_eq (cs : List String) (md : String) (c : List (String × Option Handler))
    (b : Handler) (l : List String) (tbl : SuffixTable) :
    l.foldl (fun t s =>
        let sl := normalizeSuffix s
        if dictHasKey c sl then t else dictInsert t sl (mkEntry cs md b sl)) tbl
      = (l.filterMap (fun s =>
          if dictHasKey c (normalizeSuffix s) then none
          else some (normalizeSuffix s, mkEntry cs md b (normalizeSuffix s)))).foldl
            insTable tbl := by
  induction l generalizing tbl with
  | nil => rfl
  | cons s ss ih =>
      simp only [List.foldl_cons, List.filterMap_cons]
      by_cases h : dictHasKey c (normalizeSuffix s) = true
      · simp only [h, if_true]
        exact ih tbl
      · simp only [eq_false_of_ne_true h, if_false, List.foldl_cons]
        exact ih _

theorem foldl_custom_eq (cs : List String) (md : String)
    (c : List (String × Option Handler)) (tbl : SuffixTable) :
    c.foldl (fun t p =>
        match p.2 with
        | some h => dictInsert t (normalizeSuffix p.1) (mkEntry cs md h (normalizeSuffix p.1))
        | none => t) tbl
      = (c.filterMap (fun p =>
          p.2.map (fun h => (normalizeSuffix p.1, mkEntry cs md h (normalizeSuffix p.1))))).foldl
            insTable tbl := by
  induction c generalizing tbl with
  | nil => rfl
  | cons p ps ih =>
      simp only [List.foldl_cons, List.filterMap_cons]
      cases hp : p.2 with
      | none => simp only [Option.map_none]; exact ih tbl
      | some h => simp only [Option.map_some, List.foldl_cons]; exact ih _

theorem processModality_eq_writes (cs : List String) (tbl : SuffixTable)
    (md : String) (r : ModalityRecord) :
    processModality cs tbl md r = (modalityWrites cs md r).foldl insTable tbl := by
  unfold processModality modalityWrites baseWrites customWrites
  rw [List.foldl_append]
  cases hb : r.base_handler with
  | none =>
      dsimp only
      exact foldl_custom_eq cs md r.custom tbl
  | some b =>
      dsimp only
      rw [foldl_custom_eq, foldl_base_eq]

/-- Lookup of the table produced by the last write for the key, falling back
to the initial table. -/
def writesLookup (u : String) : List (String × SuffixEntry) → Option SuffixEntry
  | [] => none
  | p :: ps => optOr (writesLookup u ps) (if p.1 = u then some p.2 else none)

theorem optOr_assoc {α : Type} (a b c : Option α) :
    optOr (optOr a b) c = optOr a (optOr b c) := by
  cases a <;> rfl

theorem optOr_none_right {α : Type} (a : Option α) : optOr a none = a := by
  cases a <;> rfl

theorem lookup_foldl_insTable (ws : List (String × SuffixEntry)) (tbl : SuffixTable)
    (u : String) :
    dictLookup (ws.foldl insTable tbl) u
      = optOr (writesLookup u ws) (dictLookup tbl u) := by
  induction ws generalizing tbl with
  | nil => rfl
  | cons p ps ih =>
      simp only [List.foldl_cons, writesLookup]
      rw [ih]
      cases hps : writesLookup u ps with
      | some e => simp only [optOr]
      | none =>
          simp only [optOr, insTable]
          rw [dictLookup_dictInsert]
          by_cases h : p.1 = u
          · rw [if_pos h.symm, if_pos h]
          · rw [if_neg (fun h2 => h h2.symm), if_neg h]

theorem lookup_processModality_nil (cs : List String) (md : String)
    (r : ModalityRecord) (u : String) :
    dictLookup (processModality cs [] md r) u = writesLookup u (modalityWrites cs md r) := by
  rw [processModality_eq_writes, lookup_foldl_insTable]
  exact optOr_none_right _

theorem writesLookup_append (u : String) (a b : List (String × SuffixEntry)) :
    writesLookup u (a ++ b) = optOr (writesLookup u b) (writesLookup u a) := by
  induction a with
  | nil =>
      rw [List.nil_append]
      exact (optOr_none_right _).symm
  | cons p ps ih =>
      simp only [List.cons_append, writesLookup, List.append_eq, ih, optOr_assoc]

/-- All writes of a whole registry run, in execution order. -/
def registryWrites (cs : List String) (reg : Registry) : List (String × SuffixEntry) :=
  (reg.map (fun p => modalityWrites cs p.1 p.2)).flatten

theorem collect_eq_writes (cs : List String) (reg : Registry) :
    collect_suffix_info cs reg = (registryWrites cs reg).foldl insTable [] := by
  unfold collect_suffix_info registryWrites
  generalize hinit : ([] : SuffixTable) = init
  clear hinit
  induction reg generalizing init with
  | nil => rfl
  | cons p ps ih =>
      simp only [List.foldl_cons, List.map_cons, List.flatten_cons, List.foldl_append]
      rw [ih, processModality_eq_writes]

theorem lookup_collect (cs : List String) (reg : Registry) (u : String) :
    dictLookup (collect_suffix_info cs reg) u = writesLookup u (registryWrites cs reg) := by
  rw [collect_eq_writes, lookup_foldl_insTable]
  cases writesLookup u (registryWrites cs reg) <;> rfl

theorem keysNodup_foldl_insTable (ws : List (String × SuffixEntry)) (tbl : SuffixTable)
    (h : KeysNodup tbl) : KeysNodup (ws.foldl insTable tbl) := by
  induction ws generalizing tbl with
  | nil => exact h
  | cons p ps ih =>
      simp only [List.foldl_cons]
      exact ih _ (keysNodup_dictInsert _ _ _ h)

theorem keysNodup_collect (cs : List String) (reg : Registry) :
    KeysNodup (collect_suffix_info cs reg) := by
  rw [collect_eq_writes]
  exact keysNodup_foldl_insTable _ _ (by simp [KeysNodup])

/-! ### Character and suffix-normalization lemmas -/

theorem char_toNat_inj {a b : Char} (h : a.toNat = b.toNat) : a = b :=
  Char.eq_of_val_eq (UInt32.ext h)

theorem char_ofNat_toNat {n : Nat} (h : n < 55296) : (Char.ofNat n).toNat = n := by
  have hv : Nat.isValidChar n := Or.inl h
  rw [Char.ofNat, dif_pos hv]
  simp [Char.ofNatAux, Char.toNat, UInt32.toNat, BitVec.toNat_ofNatLt]

theorem toLower_toNat (c : Char) :
    (Char.toLower c).toNat
      = if 65 ≤ c.toNat ∧ c.toNat ≤ 90 then c.toNat + 32 else c.toNat := by
  unfold Char.toLower
  by_cases h : c.toNat ≥ 65 ∧ c.toNat ≤ 90
  · rw [if_pos h, if_pos ⟨h.1, h.2⟩]
    exact char_ofNat_toNat (by omega)
  · rw [if_neg h, if_neg (fun h2 => h ⟨h2.1, h2.2⟩)]

/-- The lowered form of a character is never an ASCII capital letter. -/
theorem toLower_not_upper (c : Char) :
    ¬(65 ≤ (Char.toLower c).toNat ∧ (Char.toLower c).toNat ≤ 90) := by
  rw [toLower_toNat]
  by_cases h : 65 ≤ c.toNat ∧ c.toNat ≤ 90
  · rw [if_pos h]
    omega
  · rw [if_neg h]
    exact h

/-- Lowering preserves being distinct from the dot character. -/
theorem toLower_ne_dot (c : Char) (h : c ≠ '.') : Char.toLower c ≠ '.' := by
  intro h2
  have ht : (Char.toLower c).toNat = 46 := by rw [h2]; rfl
  rw [toLower_toNat] at ht
  by_cases hc : 65 ≤ c.toNat ∧ c.toNat ≤ 90
  · rw [if_pos hc] at ht
    omega
  · rw [if_neg hc] at ht
    exact h (char_toNat_inj ht)

theorem stripLeadingDots_head (l : List Char) (c : Char)
    (h : (stripLeadingDots l).head? = some c) : c ≠ '.' := by
  induction l with
  | nil => simp [stripLeadingDots] at h
  | cons a as ih =>
      by_cases ha : a = '.'
      · rw [stripLeadingDots, if_pos ha] at h
        exact ih h
      · rw [stripLeadingDots, if_neg ha] at h
        simp only [List.head?_cons, Option.some.injEq] at h
        exact h ▸ ha

/-- Characters of a normalized suffix are never ASCII capitals. -/
theorem normalizeSuffix_not_upper (s : String) (c : Char)
    (hc : c ∈ (normalizeSuffix s).data) : ¬(65 ≤ c.toNat ∧ c.toNat ≤ 90) := by
  unfold normalizeSuffix at hc
  simp only [String.data] at hc
  rcases List.mem_map.mp hc with ⟨d, _, hd⟩
  exact hd ▸ toLower_not_upper d

/-- A normalized suffix never starts with a dot. -/
theorem normalizeSuffix_head_ne_dot (s : String) :
    (normalizeSuffix s).data.head? ≠ some '.' := by
  unfold normalizeSuffix
  simp only [String.data]
  rw [List.head?_map]
  cases h : (stripLeadingDots s.data).head? with
  | none => simp
  | some c =>
      intro h2
      have h3 : Char.toLower c = '.' := by simpa using h2
      exact toLower_ne_dot c (stripLeadingDots_head s.data c h) h3

/-! ### Lexicographic string order (the order used by Python `sorted`) -/

theorem lexLe_total (as bs : List Char) : lexLe as bs = true ∨ lexLe bs as = true := by
  induction as generalizing bs with
  | nil => exact Or.inl rfl
  | cons a as ih =>
      cases bs with
      | nil => exact Or.inr rfl
      | cons b bs =>
          rcases lt_trichotomy a b with h | h | h
          · left
            simp [lexLe, h]
          · subst h
            rcases ih bs with h2 | h2
            · left
              simp [lexLe, lt_irrefl, h2]
            · right
              simp [lexLe, lt_irrefl, h2]
          · right
            simp [lexLe, h]

theorem lexLe_trans (as bs cs : List Char) (h1 : lexLe as bs = true)
    (h2 : lexLe bs cs = true) : lexLe as cs = true := by
  induction as generalizing bs cs with
  | nil => rfl
  | cons a as ih =>
      cases bs with
      | nil => simp [lexLe] at h1
      | cons b bs =>
          cases cs with
          | nil => simp [lexLe] at h2
          | cons c cs =>
              simp only [lexLe] at h1 h2 ⊢
              by_cases hab : a < b
              · by_cases hbc : b < c
                · rw [if_pos (lt_trans hab hbc)]
                · rw [if_neg hbc] at h2
                  by_cases hbc2 : b = c
                  · rw [if_pos (hbc2 ▸ hab)]
                  · rw [if_pos hab] at h1
                    rw [if_neg hbc2] at h2
                    exact absurd h2 (by simp)
              · rw [if_neg hab] at h1
                by_cases hab2 : a = b
                · subst hab2
                  rw [if_pos rfl] at h1
                  by_cases hac : a < c
                  · rw [if_pos hac]
                  · rw [if_neg hac] at h2 ⊢
                    by_cases hac2 : a = c
                    · rw [if_pos hac2] at h2 ⊢
                      exact ih bs cs h1 h2
                    · rw [if_neg hac2] at h2
                      exact absurd h2 (by simp)
                · rw [if_neg hab2] at h1
                  exact absurd h1 (by simp)

theorem lexLe_antisymm (as bs : List Char) (h1 : lexLe as bs = true)
    (h2 : lexLe bs as = true) : as = bs := by
  induction as generalizing bs with
  | nil =>
      cases bs with
      | nil => rfl
      | cons b bs => simp [lexLe] at h2
  | cons a as ih =>
      cases bs with
      | nil => simp [lexLe] at h1
      | cons b bs =>
          simp only [lexLe] at h1 h2
          by_cases hab : a < b
          · rw [if_neg (lt_asymm hab), if_neg (ne_of_gt hab)] at h2
            exact absurd h2 (by simp)
          · rw [if_neg hab] at h1
            by_cases hab2 : a = b
            · subst hab2
              rw [if_pos rfl] at h1
              rw [if_neg hab, if_pos rfl] at h2
              rw [ih bs h1 h2]
            · rw [if_neg hab2] at h1
              exact absurd h1 (by simp)

theorem strings_eq_of_data_eq (s t : String) (h : s.data = t.data) : s = t := by
  cases s
  cases t
  simp_all

instance : IsTotal String (fun a b => strLe a b = true) :=
  ⟨fun a b => lexLe_total a.data b.data⟩

instance : IsTrans String (fun a b => strLe a b = true) :=
  ⟨fun a b c => lexLe_trans a.data b.data c.data⟩

instance : IsAntisymm String (fun a b => strLe a b = true) :=
  ⟨fun a b h1 h2 => strings_eq_of_data_eq a b (lexLe_antisymm a.data b.data h1 h2)⟩

theorem sortStrings_sorted (l : List String) :
    (sortStrings l).Sorted (fun a b => strLe a b = true) :=
  List.sorted_insertionSort _ l

theorem sortStrings_perm (l : List String) : (sortStrings l).Perm l :=
  List.perm_insertionSort _ l

/-- Two duplicate-free representations of the same set of strings sort to
the same list: the key fact behind run-to-run determinism. -/
theorem sortStrings_eq_of_equiv (l1 l2 : List String) (h1 : l1.Nodup) (h2 : l2.Nodup)
    (hm : ∀ s, s ∈ l1 ↔ s ∈ l2) : sortStrings l1 = sortStrings l2 := by
  have hp : l1.Perm l2 := (List.perm_ext_iff_of_nodup h1 h2).mpr hm
  exact List.eq_of_perm_of_sorted
    ((sortStrings_perm l1).trans (hp.trans (sortStrings_perm l2).symm))
    (sortStrings_sorted l1) (sortStrings_sorted l2)

/-! ### Set-accumulation lemmas -/

theorem mem_setAdd (l : List String) (x y : String) :
    y ∈ setAdd l x ↔ y ∈ l ∨ y = x := by
  unfold setAdd
  by_cases h : l.contains x = true
  · rw [if_pos h]
    have hx : x ∈ l := by simpa using h
    constructor
    · exact Or.inl
    · rintro (h2 | h2)
      · exact h2
      · exact h2 ▸ hx
  · rw [if_neg h]
    simp

theorem nodup_setAdd (l : List String) (x : String) (h : l.Nodup) :
    (setAdd l x).Nodup := by
  unfold setAdd
  by_cases hc : l.contains x = true
  · rw [if_pos hc]
    exact h
  · rw [if_neg hc]
    simp only [List.nodup_append, List.nodup_cons, List.nodup_nil]
    refine ⟨h, by simp, ?_⟩
    intro a ha hax
    rw [List.mem_singleton] at hax
    exact hc (by simpa using (hax ▸ ha))

theorem mem_foldl_setAdd (l : List String) (acc : List String) (y : String) :
    y ∈ l.foldl setAdd acc ↔ y ∈ acc ∨ y ∈ l := by
  induction l generalizing acc with
  | nil => simp
  | cons a as ih =>
      simp only [List.foldl_cons, ih, mem_setAdd, List.mem_cons]
      tauto

theorem nodup_foldl_setAdd (l : List String) (acc : List String) (h : acc.Nodup) :
    (l.foldl setAdd acc).Nodup := by
  induction l generalizing acc with
  | nil => exact h
  | cons a as ih => exact ih _ (nodup_setAdd _ _ h)

theorem allReturnTypes_mem_aux (groups : List (String × List String))
    (acc : List String) (y : String) :
    y ∈ groups.foldl (fun acc p => p.2.foldl setAdd acc) acc
      ↔ y ∈ acc ∨ ∃ p ∈ groups, y ∈ p.2 := by
  induction groups generalizing acc with
  | nil => simp
  | cons p ps ih =>
      rw [List.foldl_cons, ih, mem_foldl_setAdd]
      simp only [List.mem_cons]
      constructor
      · rintro ((h | h) | ⟨q, hq, hyq⟩)
        · exact Or.inl h
        · exact Or.inr ⟨p, Or.inl rfl, h⟩
        · exact Or.inr ⟨q, Or.inr hq, hyq⟩
      · rintro (h | ⟨q, hq | hq, hyq⟩)
        · exact Or.inl (Or.inl h)
        · exact Or.inl (Or.inr (hq ▸ hyq))
        · exact Or.inr ⟨q, hq, hyq⟩

theorem mem_allReturnTypes (groups : List (String × List String)) (y : String) :
    y ∈ allReturnTypes groups ↔ ∃ p ∈ groups, y ∈ p.2 := by
  unfold allReturnTypes
  rw [allReturnTypes_mem_aux]
  simp

theorem nodup_allReturnTypes (groups : List (String × List String)) :
    (allReturnTypes groups).Nodup := by
  unfold allReturnTypes
  generalize hacc : ([] : List String) = acc
  have h : acc.Nodup := by rw [← hacc]; exact List.nodup_nil
  clear hacc
  induction groups generalizing acc with
  | nil => exact h
  | cons p ps ih => exact ih _ (nodup_foldl_setAdd _ _ h)

theorem mem_importsFold (l : List String) (acc : List String) (y : String) :
    y ∈ l.foldl (fun a t =>
        match dictLookup TYPE_IMPORTS t with
        | some imp => setAdd a imp
        | none => a) acc
      ↔ y ∈ acc ∨ ∃ t ∈ l, dictLookup TYPE_IMPORTS t = some y := by
  induction l generalizing acc with
  | nil => simp
  | cons a as ih =>
      simp only [List.foldl_cons, List.mem_cons]
      cases hl : dictLookup TYPE_IMPORTS a with
      | none =>
          rw [ih]
          constructor
          · rintro (h | ⟨t, ht, hty⟩)
            · exact Or.inl h
            · exact Or.inr ⟨t, Or.inr ht, hty⟩
          · rintro (h | ⟨t, hta | hta, hty⟩)
            · exact Or.inl h
            · rw [hta] at hty
              rw [hty] at hl
              cases hl
            · exact Or.inr ⟨t, hta, hty⟩
      | some imp =>
          rw [ih]
          simp only [mem_setAdd]
          constructor
          · rintro ((h | h) | ⟨t, ht, hty⟩)
            · exact Or.inl h
            · exact Or.inr ⟨a, Or.inl rfl, h ▸ hl⟩
            · exact Or.inr ⟨t, Or.inr ht, hty⟩
          · rintro (h | ⟨t, hta | hta, hty⟩)
            · exact Or.inl (Or.inl h)
            · rw [hta] at hty
              rw [hty] at hl
              exact Or.inl (Or.inr (Option.some.inj hl))
            · exact Or.inr ⟨t, hta, hty⟩

theorem nodup_importsFold (l : List String) (acc : List String) (h : acc.Nodup) :
    (l.foldl (fun a t =>
        match dictLookup TYPE_IMPORTS t with
        | some imp => setAdd a imp
        | none => a) acc).Nodup := by
  induction l generalizing acc with
  | nil => exact h
  | cons a as ih =>
      simp only [List.foldl_cons]
      cases hl : dictLookup TYPE_IMPORTS a with
      | none => exact ih _ h
      | some imp => exact ih _ (nodup_setAdd _ _ h)

theorem mem_importsNeeded (groups : List (String × List String)) (y : String) :
    y ∈ importsNeeded groups
      ↔ ∃ t, (∃ p ∈ groups, t ∈ p.2) ∧ dictLookup TYPE_IMPORTS t = some y := by
  unfold importsNeeded
  rw [(sortStrings_perm _).mem_iff, mem_importsFold]
  simp only [List.not_mem_nil, false_or]
  constructor
  · rintro ⟨t, ht, hty⟩
    exact ⟨t, (mem_allReturnTypes groups t).mp ht, hty⟩
  · rintro ⟨t, ht, hty⟩
    exact ⟨t, (mem_allReturnTypes groups t).mpr ht, hty⟩

theorem nodup_importsNeeded (groups : List (String × List String)) :
    (importsNeeded groups).Nodup := by
  unfold importsNeeded
  exact ((sortStrings_perm _).nodup_iff).mpr (nodup_importsFold _ _ List.nodup_nil)

/-! ### The collision set only recolours the `is_collision` flag -/

/-- Forget the collision flag of an entry. -/
def stripFlag (p : String × SuffixEntry) : String × Handler × String × String :=
  (p.1, p.2.handler, p.2.return_type, p.2.modality)

/-- Recompute the collision flag of an entry from the collision set `cs`. -/
def reflagEntry (cs : List String) (p : String × SuffixEntry) : String × SuffixEntry :=
  (p.1, { p.2 with is_collision := cs.contains p.1 })

theorem reflag_mkEntry (cs cs2 : List String) (md : String) (h : Handler) (sl : String) :
    reflagEntry cs (sl, mkEntry cs2 md h sl) = (sl, mkEntry cs md h sl) := rfl

theorem baseWrites_reflag (cs cs2 : List String) (md : String)
    (c : List (String × Option Handler)) (b : Handler) (l : List String) :
    baseWrites cs md c b l = (baseWrites cs2 md c b l).map (reflagEntry cs) := by
  unfold baseWrites
  rw [List.map_filterMap]
  apply List.filterMap_congr
  intro s _
  by_cases h : dictHasKey c (normalizeSuffix s) = true
  · rw [if_pos h, if_pos h]
    rfl
  · rw [if_neg h, if_neg h]
    rfl

theorem customWrites_reflag (cs cs2 : List String) (md : String)
    (c : List (String × Option Handler)) :
    customWrites cs md c = (customWrites cs2 md c).map (reflagEntry cs) := by
  unfold customWrites
  rw [List.map_filterMap]
  apply List.filterMap_congr
  intro p _
  cases p.2 with
  | none => rfl
  | some h => rfl

theorem modalityWrites_reflag (cs cs2 : List String) (md : String) (r : ModalityRecord) :
    modalityWrites cs md r = (modalityWrites cs2 md r).map (reflagEntry cs) := by
  unfold modalityWrites
  rw [List.map_append]
  cases r.base_handler with
  | none =>
      rw [List.map_nil]
      exact congrArg _ (customWrites_reflag cs cs2 md r.custom)
  | some b =>
      rw [← baseWrites_reflag, ← customWrites_reflag]

theorem dictInsert_map_reflag (cs : List String) (t : SuffixTable)
    (p : String × SuffixEntry) :
    dictInsert (t.map (reflagEntry cs)) (reflagEntry cs p).1 (reflagEntry cs p).2
      = (dictInsert t p.1 p.2).map (reflagEntry cs) := by
  induction t with
  | nil => rfl
  | cons q qs ih =>
      simp only [List.map_cons, dictInsert]
      dsimp only [reflagEntry]
      by_cases h : q.1 = p.1
      · rw [if_pos h, if_pos h, List.map_cons]
        rfl
      · rw [if_neg h, if_neg h, List.map_cons]
        dsimp only [reflagEntry] at ih
        rw [ih]
        rfl

theorem foldl_insTable_map_reflag (cs : List String) (ws : List (String × SuffixEntry))
    (tbl : SuffixTable) :
    (ws.map (reflagEntry cs)).foldl insTable (tbl.map (reflagEntry cs))
      = (ws.foldl insTable tbl).map (reflagEntry cs) := by
  induction ws generalizing tbl with
  | nil => rfl
  | cons p ps ih =>
      simp only [List.map_cons, List.foldl_cons]
      rw [show insTable (tbl.map (reflagEntry cs)) (reflagEntry cs p)
            = (insTable tbl p).map (reflagEntry cs) from dictInsert_map_reflag cs tbl p]
      exact ih _

theorem collect_reflag (cs cs2 : List String) (reg : Registry) :
    collect_suffix_info cs reg = (collect_suffix_info cs2 reg).map (reflagEntry cs) := by
  rw [collect_eq_writes, collect_eq_writes]
  have hw : registryWrites cs reg = (registryWrites cs2 reg).map (reflagEntry cs) := by
    unfold registryWrites
    rw [List.map_flatten, List.map_map]
    congr 1
    apply List.map_congr_left
    intro p _
    exact modalityWrites_reflag cs cs2 p.1 p.2
  rw [hw]
  exact foldl_insTable_map_reflag cs _ []

theorem group_by_modality_map_reflag (cs : List String) (t : SuffixTable) :
    group_by_modality (t.map (reflagEntry cs)) = group_by_modality t := by
  unfold group_by_modality
  rw [List.foldl_map]
  rfl

theorem stripFlag_map_reflag (cs : List String) (t : SuffixTable) :
    (t.map (reflagEntry cs)).map stripFlag = t.map stripFlag := by
  rw [List.map_map]
  rfl

/-! ### Rendering is independent of set-iteration order

Python sets are unordered; the only facts a run may depend on are
membership.  Two runs are modelled by two duplicate-free lists with the same
members, per modality. -/

/-- Two representations of the same set of type strings. -/
def TypesEquiv (l1 l2 : List String) : Prop :=
  l1.Nodup ∧ l2.Nodup ∧ ∀ s, s ∈ l1 ↔ s ∈ l2

/-- Same modality groups, with the per-modality type sets possibly
enumerated in different orders. -/
def GroupsEquiv (g1 g2 : List (String × List String)) : Prop :=
  List.Forall₂ (fun p q => p.1 = q.1 ∧ TypesEquiv p.2 q.2) g1 g2

theorem buildStubType_union (l : List String) (h : 2 ≤ l.length) :
    buildStubType l
      = "Union[" ++ String.intercalate ", " ((sortStrings l).map stubName) ++ "]" := by
  match l with
  | [] => simp at h
  | [t] => simp at h
  | a :: b :: rest => rfl

theorem buildStubType_equiv (l1 l2 : List String) (h : TypesEquiv l1 l2) :
    buildStubType l1 = buildStubType l2 := by
  obtain ⟨h1, h2, hm⟩ := h
  have hp : l1.Perm l2 := (List.perm_ext_iff_of_nodup h1 h2).mpr hm
  match l1, hp with
  | [], hp =>
      rw [List.Perm.eq_nil hp.symm]
  | [t], hp =>
      rw [List.perm_singleton.mp hp.symm]
  | a :: b :: rest, hp =>
      have hlen : 2 ≤ l2.length := by
        rw [← hp.length_eq]
        simp only [List.length_cons]
        omega
      rw [buildStubType_union _ (by simp only [List.length_cons]; omega),
        buildStubType_union _ hlen]
      have := sortStrings_eq_of_equiv (a :: b :: rest) l2 h1 h2 hm
      rw [this]

theorem generate_modality_overload_equiv (md : String) (l1 l2 : List String)
    (h : TypesEquiv l1 l2) :
    generate_modality_overload md l1 = generate_modality_overload md l2 := by
  unfold generate_modality_overload
  rw [buildStubType_equiv l1 l2 h]

theorem dictLookup_groupsEquiv (g1 g2 : List (String × List String))
    (h : GroupsEquiv g1 g2) (m : String) :
    (dictLookup g1 m = none ∧ dictLookup g2 m = none)
      ∨ ∃ l1 l2, dictLookup g1 m = some l1 ∧ dictLookup g2 m = some l2
          ∧ TypesEquiv l1 l2 := by
  induction h with
  | nil => exact Or.inl ⟨rfl, rfl⟩
  | @cons p q t1 t2 hpq hrest ih =>
      obtain ⟨hfst, hty⟩ := hpq
      by_cases hm : p.1 = m
      · right
        refine ⟨p.2, q.2, ?_, ?_, hty⟩
        · simp [dictLookup, hm]
        · simp [dictLookup, hfst ▸ hm]
      · have hm2 : ¬ q.1 = m := hfst ▸ hm
        simpa [dictLookup, hm, hm2] using ih

theorem groupsEquiv_types_mem (g1 g2 : List (String × List String))
    (h : GroupsEquiv g1 g2) (t : String) :
    (∃ p ∈ g1, t ∈ p.2) ↔ ∃ q ∈ g2, t ∈ q.2 := by
  induction h with
  | nil => simp
  | @cons p q t1 t2 hpq hrest ih =>
      obtain ⟨hfst, _, _, hmem⟩ := hpq
      simp only [List.mem_cons]
      constructor
      · rintro ⟨x, hx | hx, htx⟩
        · exact ⟨q, Or.inl rfl, (hmem t).mp (hx ▸ htx)⟩
        · obtain ⟨y, hy, hty⟩ := ih.mp ⟨x, hx, htx⟩
          exact ⟨y, Or.inr hy, hty⟩
      · rintro ⟨x, hx | hx, htx⟩
        · exact ⟨p, Or.inl rfl, (hmem t).mpr (hx ▸ htx)⟩
        · obtain ⟨y, hy, hty⟩ := ih.mpr ⟨x, hx, htx⟩
          exact ⟨y, Or.inr hy, hty⟩

theorem importsNeeded_equiv (g1 g2 : List (String × List String))
    (h : GroupsEquiv g1 g2) : importsNeeded g1 = importsNeeded g2 := by
  unfold importsNeeded
  apply sortStrings_eq_of_equiv
  · exact nodup_importsFold _ _ List.nodup_nil
  · exact nodup_importsFold _ _ List.nodup_nil
  · intro s
    rw [mem_importsFold, mem_importsFold]
    simp only [List.not_mem_nil, false_or]
    constructor
    · rintro ⟨t, ht, hty⟩
      refine ⟨t, ?_, hty⟩
      rw [mem_allReturnTypes] at ht ⊢
      exact (groupsEquiv_types_mem g1 g2 h t).mp ht
    · rintro ⟨t, ht, hty⟩
      refine ⟨t, ?_, hty⟩
      rw [mem_allReturnTypes] at ht ⊢
      exact (groupsEquiv_types_mem g1 g2 h t).mpr ht

theorem overloadLines_equiv_priority (g1 g2 : List (String × List String))
    (h : GroupsEquiv g1 g2) (ms : List String) (acc : List String) :
    ms.foldl (fun acc m =>
      match dictLookup g1 m with
      | some ts => acc ++ generate_modality_overload m ts
      | none => acc) acc
    = ms.foldl (fun acc m =>
        match dictLookup g2 m with
        | some ts => acc ++ generate_modality_overload m ts
        | none => acc) acc := by
  induction ms generalizing acc with
  | nil => rfl
  | cons m rest ih =>
      simp only [List.foldl_cons]
      rcases dictLookup_groupsEquiv g1 g2 h m with ⟨hn1, hn2⟩ | ⟨l1, l2, hs1, hs2, hty⟩
      · rw [hn1, hn2]
        exact ih acc
      · rw [hs1, hs2]
        dsimp only
        rw [generate_modality_overload_equiv m l1 l2 hty]
        exact ih _

theorem overloadLines_equiv_rest (g1 g2 : List (String × List String))
    (h : GroupsEquiv g1 g2) (acc : List String) :
    g1.foldl (fun acc p =>
      if MODALITY_ORDER.contains p.1 then acc
      else acc ++ generate_modality_overload p.1 p.2) acc
    = g2.foldl (fun acc p =>
        if MODALITY_ORDER.contains p.1 then acc
        else acc ++ generate_modality_overload p.1 p.2) acc := by
  induction h generalizing acc with
  | nil => rfl
  | @cons p q t1 t2 hpq hrest ih =>
      obtain ⟨hfst, hty⟩ := hpq
      simp only [List.foldl_cons]
      by_cases hc : MODALITY_ORDER.contains p.1 = true
      · rw [if_pos hc, if_pos (hfst ▸ hc)]
        exact ih acc
      · rw [if_neg hc, if_neg (hfst ▸ hc)]
        rw [← hfst, generate_modality_overload_equiv p.1 p.2 q.2 hty]
        exact ih _

theorem overloadLines_equiv (g1 g2 : List (String × List String))
    (h : GroupsEquiv g1 g2) : overloadLines g1 = overloadLines g2 := by
  unfold overloadLines
  rw [overloadLines_equiv_priority g1 g2 h MODALITY_ORDER [],
    overloadLines_equiv_rest g1 g2 h []]

/-! ### Which write wins within one modality -/

theorem keysNodup_val_unique {α : Type} (c : List (String × α)) (h : KeysNodup c)
    (k : String) (v1 v2 : α) (h1 : (k, v1) ∈ c) (h2 : (k, v2) ∈ c) : v1 = v2 := by
  induction c with
  | nil => cases h1
  | cons q qs ih =>
      unfold KeysNodup at h
      simp only [List.map_cons, List.nodup_cons] at h
      rcases List.mem_cons.mp h1 with e1 | m1 <;> rcases List.mem_cons.mp h2 with e2 | m2
      · injection e1.trans e2.symm
      · exfalso
        apply h.1
        have hq1 : q.1 = k := by rw [← e1]
        rw [hq1]
        exact List.mem_map_of_mem Prod.fst m2
      · exfalso
        apply h.1
        have hq1 : q.1 = k := by rw [← e2]
        rw [hq1]
        exact List.mem_map_of_mem Prod.fst m1
      · exact ih h.2 m1 m2

theorem writesLookup_customWrites_none (cs : List String) (md : String)
    (c : List (String × Option Handler)) (u : String)
    (h : ∀ q ∈ c, normalizeSuffix q.1 = u → q.2 = none) :
    writesLookup u (customWrites cs md c) = none := by
  induction c with
  | nil => rfl
  | cons q qs ih =>
      have htail : writesLookup u (customWrites cs md qs) = none :=
        ih (fun p hp => h p (List.mem_cons_of_mem q hp))
      unfold customWrites
      rw [List.filterMap_cons]
      cases hq : q.2 with
      | none =>
          rw [Option.map_none']
          exact htail
      | some hh =>
          rw [Option.map_some']
          show optOr (writesLookup u (customWrites cs md qs))
            (if normalizeSuffix q.1 = u then some (mkEntry cs md hh (normalizeSuffix q.1))
             else none) = none
          rw [htail]
          have hne : ¬ normalizeSuffix q.1 = u := fun he => by
            have h2 := h q (List.mem_cons_self q qs) he
            rw [hq] at h2
            cases h2
          rw [if_neg hne]
          rfl

theorem writesLookup_customWrites_last (cs : List String) (md : String)
    (c : List (String × Option Handler)) (s : String) (h : Handler)
    (hc : (s, some h) ∈ c) (hkeys : KeysNodup c)
    (huniq : ∀ p ∈ c, normalizeSuffix p.1 = normalizeSuffix s → p.1 = s) :
    writesLookup (normalizeSuffix s) (customWrites cs md c)
      = some (mkEntry cs md h (normalizeSuffix s)) := by
  induction c with
  | nil => cases hc
  | cons q qs ih =>
      have hkeys2 : KeysNodup qs := by
        unfold KeysNodup at hkeys ⊢
        simp only [List.map_cons, List.nodup_cons] at hkeys
        exact hkeys.2
      rcases List.mem_cons.mp hc with he | hm
      · have hqs_none : writesLookup (normalizeSuffix s) (customWrites cs md qs) = none := by
          apply writesLookup_customWrites_none
          intro p hp hps
          have hp1 : p.1 = s := huniq p (List.mem_cons_of_mem q hp) hps
          exfalso
          unfold KeysNodup at hkeys
          simp only [List.map_cons, List.nodup_cons] at hkeys
          have hmem : s ∈ qs.map Prod.fst := hp1 ▸ List.mem_map_of_mem Prod.fst hp
          rw [← he] at hkeys
          exact hkeys.1 hmem
        unfold customWrites
        rw [List.filterMap_cons, ← he]
        rw [show Option.map
            (fun h => (normalizeSuffix (s, some h).1, mkEntry cs md h (normalizeSuffix (s, some h).1)))
            ((s, some h) : String × Option Handler).2
            = some (normalizeSuffix s, mkEntry cs md h (normalizeSuffix s)) from rfl]
        show optOr (writesLookup (normalizeSuffix s) (customWrites cs md qs))
          (if normalizeSuffix s = normalizeSuffix s
           then some (mkEntry cs md h (normalizeSuffix s)) else none)
          = some (mkEntry cs md h (normalizeSuffix s))
        rw [hqs_none, if_pos rfl]
        rfl
      · have hres : writesLookup (normalizeSuffix s) (customWrites cs md qs)
            = some (mkEntry cs md h (normalizeSuffix s)) :=
          ih hm hkeys2 (fun p hp => huniq p (List.mem_cons_of_mem q hp))
        unfold customWrites
        rw [List.filterMap_cons]
        cases hq : q.2 with
        | none =>
            rw [Option.map_none']
            exact hres
        | some hh =>
            rw [Option.map_some']
            show optOr (writesLookup (normalizeSuffix s) (customWrites cs md qs))
              (if normalizeSuffix q.1 = normalizeSuffix s
               then some (mkEntry cs md hh (normalizeSuffix q.1)) else none)
              = some (mkEntry cs md h (normalizeSuffix s))
            rw [hres]
            rfl

theorem writesLookup_baseWrites_none (cs : List String) (md : String)
    (c : List (String × Option Handler)) (b : Handler) (l : List String) (u : String)
    (h : dictHasKey c u = true) :
    writesLookup u (baseWrites cs md c b l) = none := by
  induction l with
  | nil => rfl
  | cons s ss ih =>
      unfold baseWrites
      rw [List.filterMap_cons]
      by_cases hk : dictHasKey c (normalizeSuffix s) = true
      · rw [if_pos hk]
        exact ih
      · rw [if_neg hk]
        show optOr (writesLookup u (baseWrites cs md c b ss))
          (if normalizeSuffix s = u then some (mkEntry cs md b (normalizeSuffix s)) else none)
          = none
        rw [ih]
        have hne : ¬ normalizeSuffix s = u := fun he => hk (he ▸ h)
        rw [if_neg hne]
        rfl

/-! ### Registry-level write decomposition -/

theorem registryWrites_cons (cs : List String) (p : String × ModalityRecord)
    (ps : Registry) :
    registryWrites cs (p :: ps) = modalityWrites cs p.1 p.2 ++ registryWrites cs ps := by
  unfold registryWrites
  rw [List.map_cons, List.flatten_cons]

theorem registryWrites_append (cs : List String) (r1 r2 : Registry) :
    registryWrites cs (r1 ++ r2) = registryWrites cs r1 ++ registryWrites cs r2 := by
  unfold registryWrites
  rw [List.map_append, List.flatten_append]

theorem writesLookup_registry_none (cs : List String) (post : Registry) (u : String)
    (h : ∀ p ∈ post, dictLookup (processModality cs [] p.1 p.2) u = none) :
    writesLookup u (registryWrites cs post) = none := by
  induction post with
  | nil => rfl
  | cons p ps ih =>
      rw [registryWrites_cons, writesLookup_append]
      rw [ih (fun q hq => h q (List.mem_cons_of_mem p hq))]
      have hh := h p (List.mem_cons_self p ps)
      rw [lookup_processModality_nil] at hh
      rw [hh]
      rfl

theorem mem_foldl_insTable (ws : List (String × SuffixEntry)) (tbl : SuffixTable)
    (p : String × SuffixEntry) (hp : p ∈ ws.foldl insTable tbl) :
    p ∈ tbl ∨ ∃ w ∈ ws, p = w := by
  induction ws generalizing tbl with
  | nil => exact Or.inl hp
  | cons w ws ih =>
      rw [List.foldl_cons] at hp
      rcases ih _ hp with h | ⟨w2, hw2, he⟩
      · rcases mem_dictInsert tbl w.1 w.2 p h with h2 | h2
        · exact Or.inr ⟨w, List.mem_cons_self w ws, h2⟩
        · exact Or.inl h2
      · exact Or.inr ⟨w2, List.mem_cons_of_mem w hw2, he⟩

theorem registryWrites_key_normalized (cs : List String) (reg : Registry)
    (w : String × SuffixEntry) (hw : w ∈ registryWrites cs reg) :
    ∃ s, w.1 = normalizeSuffix s := by
  unfold registryWrites at hw
  rcases List.mem_flatten.mp hw with ⟨lw, hlw, hwlw⟩
  rcases List.mem_map.mp hlw with ⟨p, _, hpe⟩
  rw [← hpe] at hwlw
  unfold modalityWrites at hwlw
  rcases List.mem_append.mp hwlw with hbase | hcust
  · cases hbh : p.2.base_handler with
    | none =>
        rw [hbh] at hbase
        cases hbase
    | some b =>
        rw [hbh] at hbase
        unfold baseWrites at hbase
        rcases List.mem_filterMap.mp hbase with ⟨s, _, hse⟩
        by_cases hk : dictHasKey p.2.custom (normalizeSuffix s) = true
        · rw [if_pos hk] at hse
          cases hse
        · rw [if_neg hk] at hse
          exact ⟨s, by rw [← Option.some.inj hse]⟩
  · unfold customWrites at hcust
    rcases List.mem_filterMap.mp hcust with ⟨q, _, hqe⟩
    cases hq2 : q.2 with
    | none =>
        rw [hq2] at hqe
        cases hqe
    | some hh =>
        rw [hq2] at hqe
        rw [Option.map_some'] at hqe
        exact ⟨q.1, by rw [← Option.some.inj hqe]⟩

/-! ### Sample handlers and records used by concrete instances -/

/-- A base handler whose type comes from the fallback table. -/
def sampleBase : Handler := ⟨"BaseText", none⟩

/-- A custom handler with an explicit declared return type. -/
def sampleCustom : Handler := ⟨"CustomLoader", some "MyType"⟩

/-- Record with suffix ".PNG" both as base suffix and as a null custom
override under the same raw key. -/
def recC2cex : ModalityRecord := ⟨some sampleBase, [".PNG"], [(".PNG", none)]⟩

/-- Record with a non-null custom override for ".PNG". -/
def recC2 : ModalityRecord := ⟨some sampleBase, [".PNG"], [(".PNG", some sampleCustom)]⟩

/-- Record registering base suffix "dat" under an image-style handler. -/
def recImageDat : ModalityRecord := ⟨some ⟨"BaseImage", none⟩, ["dat"], []⟩

/-- Record registering base suffix "dat" under a video-style handler. -/
def recVideoDat : ModalityRecord := ⟨some ⟨"BaseVideo", none⟩, ["dat"], []⟩

/-- Record with a null override at the normalized key and a second raw key
normalizing to the same suffix. -/
def recC10cex : ModalityRecord :=
  ⟨some sampleBase, ["png"], [("png", none), (".PNG", some sampleCustom)]⟩

/-- Record whose only custom entry is a null override at the normalized
key of its base suffix. -/
def recC10 : ModalityRecord := ⟨some sampleBase, ["png"], [("png", none)]⟩

/-! ### The claims -/

/-- C1, counterexample: for the resolved type set containing
"PIL.Image.Image" and "PIL.Z", the emitted union is
"Union[PILImage, PIL.Z]", which is not ordered by lexicographic sort of the
alias-substituted strings (that order would be PIL.Z before PILImage): the
code sorts the original type strings and substitutes aliases afterwards. -/
theorem c1_counterexample :
    buildStubType ["PIL.Z", "PIL.Image.Image"] = "Union[PILImage, PIL.Z]"
    ∧ (["PIL.Z", "PIL.Image.Image"] : List String).Nodup
    ∧ sortStrings (["PIL.Z", "PIL.Image.Image"].map stubName) = ["PIL.Z", "PILImage"]
    ∧ "Union[PILImage, PIL.Z]"
        ≠ "Union[" ++ String.intercalate ", " ["PIL.Z", "PILImage"] ++ "]" := by
  refine ⟨by decide, by decide, by decide, by decide⟩

/-- C1 (amended): for a deduplicated resolved type set with two or more
elements the emitted return type is the union expression of the
alias-substituted strings, listing each member exactly once, ordered by
lexicographic sort of the original resolved type strings, with the alias
substitution applied after sorting. -/
theorem c1_union_sorted_before_alias (l : List String) (hlen : 2 ≤ l.length) :
    buildStubType l
      = "Union[" ++ String.intercalate ", " ((sortStrings l).map stubName) ++ "]"
    ∧ (sortStrings l).Perm l
    ∧ (l.Nodup → (sortStrings l).Nodup) :=
  ⟨buildStubType_union l hlen, sortStrings_perm l,
   fun hn => ((sortStrings_perm l).nodup_iff).mpr hn⟩

/-- C1, witness at the set of the spec example. -/
theorem c1_witness :
    buildStubType ["str", "dict[str, Any]"]
      = "Union[" ++ String.intercalate ", "
          ((sortStrings ["str", "dict[str, Any]"]).map stubName) ++ "]"
    ∧ (sortStrings ["str", "dict[str, Any]"]).Perm ["str", "dict[str, Any]"]
    ∧ ((["str", "dict[str, Any]"] : List String).Nodup
        → (sortStrings ["str", "dict[str, Any]"]).Nodup) :=
  c1_union_sorted_before_alias ["str", "dict[str, Any]"] (by decide)

/-- C2, counterexample: suffix ".PNG" occurs both among the base suffixes
and as a key of the custom mapping (with a null override); the final table
entry for its normalized form carries the base handler, because the
membership check compares the normalized suffix against raw custom keys and
the null override itself is skipped. -/
theorem c2_counterexample :
    ".PNG" ∈ recC2cex.base_suffixes
    ∧ dictHasKey recC2cex.custom ".PNG" = true
    ∧ (dictLookup (collect_suffix_info [] [("Text", recC2cex)])
        (normalizeSuffix ".PNG")).map SuffixEntry.handler = some sampleBase
    ∧ recC2cex.base_handler = some sampleBase := by
  refine ⟨by decide, by decide, by decide, rfl⟩

/-- C2 (amended): for a suffix appearing both among a modality's base
suffixes and as a key of the same modality's custom mapping with a non-null
override handler, when no other custom key of the record normalizes to the
same suffix, the table entry recorded for the normalized suffix within that
modality is the custom override entry, never the base one. -/
theorem c2_custom_override_wins (cs : List String) (tbl : SuffixTable) (md s : String)
    (r : ModalityRecord) (h : Handler)
    (hb : s ∈ r.base_suffixes)
    (hc : (s, some h) ∈ r.custom)
    (hkeys : KeysNodup r.custom)
    (huniq : ∀ p ∈ r.custom, normalizeSuffix p.1 = normalizeSuffix s → p.1 = s) :
    dictLookup (processModality cs tbl md r) (normalizeSuffix s)
      = some (mkEntry cs md h (normalizeSuffix s)) := by
  rw [processModality_eq_writes, lookup_foldl_insTable]
  unfold modalityWrites
  rw [writesLookup_append]
  rw [writesLookup_customWrites_last cs md r.custom s h hc hkeys huniq]
  rfl

/-- C2, witness: the override handler of recC2 wins over its base handler. -/
theorem c2_witness :
    dictLookup (processModality [] [] "Text" recC2) (normalizeSuffix ".PNG")
      = some (mkEntry [] "Text" sampleCustom (normalizeSuffix ".PNG")) :=
  c2_custom_override_wins [] [] "Text" ".PNG" recC2 sampleCustom (by decide) (by decide)
    (by unfold KeysNodup; decide) (by decide)

/-- C3: return-type resolution is total and ordered: the explicit declared
type is returned verbatim when present; otherwise the fallback table entry
for the handler name; otherwise the generic type. -/
theorem c3_resolution_total (h : Handler) :
    (∀ t, h.return_type = some t → get_handler_return_type h = t)
    ∧ (h.return_type = none →
        ∀ t, dictLookup DEFAULT_RETURN_TYPES h.name = some t
          → get_handler_return_type h = t)
    ∧ (h.return_type = none → dictLookup DEFAULT_RETURN_TYPES h.name = none →
        get_handler_return_type h = "Any") := by
  refine ⟨?_, ?_, ?_⟩
  · intro t ht
    unfold get_handler_return_type
    rw [ht]
  · intro hn t ht
    unfold get_handler_return_type
    rw [hn, ht]
    rfl
  · intro hn ht
    unfold get_handler_return_type
    rw [hn, ht]
    rfl

/-- C3, witness: the three resolution branches at concrete handlers. -/
theorem c3_witness :
    get_handler_return_type ⟨"JsonText", some "dict[str, Any]"⟩ = "dict[str, Any]"
    ∧ get_handler_return_type ⟨"BaseImage", none⟩ = "PIL.Image.Image"
    ∧ get_handler_return_type ⟨"UnknownHandler", none⟩ = "Any" :=
  ⟨(c3_resolution_total _).1 _ rfl,
   (c3_resolution_total _).2.1 rfl _ rfl,
   (c3_resolution_total _).2.2 rfl rfl⟩

/-- C4: when distinct modalities register the same normalized suffix, the
final table holds exactly one entry for it: the entry written by the
modality processed later in registry iteration order. -/
theorem c4_later_modality_wins (cs : List String) (pre post : Registry)
    (mod1 mod2 : String) (rec1 rec2 : ModalityRecord) (u : String) (e1 e : SuffixEntry)
    (hne : mod1 ≠ mod2)
    (hpre : (mod1, rec1) ∈ pre)
    (h1 : dictLookup (processModality cs [] mod1 rec1) u = some e1)
    (h2 : dictLookup (processModality cs [] mod2 rec2) u = some e)
    (hpost : ∀ p ∈ post, dictLookup (processModality cs [] p.1 p.2) u = none) :
    dictLookup (collect_suffix_info cs (pre ++ (mod2, rec2) :: post)) u = some e
    ∧ countKey u (collect_suffix_info cs (pre ++ (mod2, rec2) :: post)) = 1 := by
  have hlook : dictLookup (collect_suffix_info cs (pre ++ (mod2, rec2) :: post)) u
      = some e := by
    rw [lookup_collect, registryWrites_append, registryWrites_cons, writesLookup_append,
      writesLookup_append]
    rw [writesLookup_registry_none cs post u hpost]
    have h2w : writesLookup u (modalityWrites cs mod2 rec2) = some e := by
      rw [← lookup_processModality_nil]
      exact h2
    rw [h2w]
    rfl
  exact ⟨hlook, countKey_eq_one u _ (keysNodup_collect cs _) e hlook⟩

/-- C4, witness: suffix "dat" registered under "Image" and later under
"Video"; the final entry is the video one and it is unique. -/
theorem c4_witness :
    dictLookup (collect_suffix_info [] [("Image", recImageDat), ("Video", recVideoDat)])
      "dat" = some (mkEntry [] "Video" ⟨"BaseVideo", none⟩ "dat")
    ∧ countKey "dat"
        (collect_suffix_info [] [("Image", recImageDat), ("Video", recVideoDat)]) = 1 :=
  c4_later_modality_wins [] [("Image", recImageDat)] [] "Image" "Video"
    recImageDat recVideoDat "dat"
    (mkEntry [] "Image" ⟨"BaseImage", none⟩ "dat")
    (mkEntry [] "Video" ⟨"BaseVideo", none⟩ "dat")
    (by decide) (by decide) (by decide) (by decide)
    (by intro p hp; cases hp)

/-- C5: generation is deterministic: the rendered text depends on the
modality groups only through modality order and set membership, so two runs
over the same registry snapshot (whose sets may be enumerated in any order)
produce byte-identical output; in particular union building is
referentially transparent in the set of type strings. -/
theorem c5_render_deterministic (g1 g2 : List (String × List String))
    (h : GroupsEquiv g1 g2) : renderStubFromGroups g1 = renderStubFromGroups g2 := by
  unfold renderStubFromGroups stubLines
  rw [importsNeeded_equiv g1 g2 h, overloadLines_equiv g1 g2 h]

/-- C5, witness: two enumeration orders of the same type set render the
same bytes. -/
theorem c5_witness :
    renderStubFromGroups [("Text", ["str", "dict[str, Any]"])]
      = renderStubFromGroups [("Text", ["dict[str, Any]", "str"])] :=
  c5_render_deterministic _ _
    (List.Forall₂.cons
      ⟨rfl, by decide, by decide, fun s => by
        simp only [List.mem_cons, List.not_mem_nil, or_false]
        exact or_comm⟩
      List.Forall₂.nil)

/-- C6: whether a suffix is in the collision set affects only the
is_collision flag: the tables of two runs differing only in the collision
set agree after forgetting the flag, and their modality groupings agree. -/
theorem c6_collision_flag_only (cs1 cs2 : List String) (reg : Registry) :
    (collect_suffix_info cs1 reg).map stripFlag
      = (collect_suffix_info cs2 reg).map stripFlag
    ∧ group_by_modality (collect_suffix_info cs1 reg)
        = group_by_modality (collect_suffix_info cs2 reg) := by
  constructor
  · rw [collect_reflag cs1 cs2 reg, stripFlag_map_reflag]
  · rw [collect_reflag cs1 cs2 reg, group_by_modality_map_reflag]

/-- C7: a modality with exactly one distinct resolved type emits exactly
that type's alias (or the type verbatim when unaliased), with no union
wrapper, and the overload's return line carries exactly that text. -/
theorem c7_single_type_no_union (md T : String) :
    ((dictLookup TYPE_STUB_NAMES T = none → buildStubType [T] = T)
      ∧ (∀ a, dictLookup TYPE_STUB_NAMES T = some a → buildStubType [T] = a))
    ∧ (generate_modality_overload md [T]).get? 8
        = some ("    ) -> " ++ buildStubType [T] ++ ": ...") := by
  refine ⟨⟨?_, ?_⟩, ?_⟩
  · intro hn
    show stubName T = T
    unfold stubName
    rw [hn]
    rfl
  · intro a ha
    show stubName T = a
    unfold stubName
    rw [ha]
    rfl
  · rfl

/-- C7, witness: the spec example, where the single image type renders as
its alias. -/
theorem c7_witness : buildStubType ["PIL.Image.Image"] = "PILImage" :=
  ((c7_single_type_no_union "Image" "PIL.Image.Image").1.2) "PILImage" rfl

/-- C8: every key of the final suffix table is lower-case (no ASCII capital
letters) with no leading dot; and the custom-override existence check for a
base suffix is performed on its normalized form, so base suffixes with the
same normalized form are treated identically. -/
theorem c8_normalized_everywhere :
    (∀ (cs : List String) (reg : Registry) (p : String × SuffixEntry),
        p ∈ collect_suffix_info cs reg →
        (∀ ch ∈ p.1.data, ¬(65 ≤ ch.toNat ∧ ch.toNat ≤ 90))
          ∧ p.1.data.head? ≠ some '.')
    ∧ (∀ (cs : List String) (tbl : SuffixTable) (md : String) (bh : Option Handler)
        (c : List (String × Option Handler)) (s1 s2 : String),
        normalizeSuffix s1 = normalizeSuffix s2 →
        processModality cs tbl md ⟨bh, [s1], c⟩
          = processModality cs tbl md ⟨bh, [s2], c⟩) := by
  constructor
  · intro cs reg p hp
    rw [collect_eq_writes] at hp
    rcases mem_foldl_insTable _ _ p hp with h | ⟨w, hw, he⟩
    · cases h
    · rcases registryWrites_key_normalized cs reg w hw with ⟨s, hs⟩
      rw [he, hs]
      exact ⟨fun ch hch => normalizeSuffix_not_upper s ch hch,
        normalizeSuffix_head_ne_dot s⟩
  · intro cs tbl md bh c s1 s2 h
    unfold processModality
    cases bh with
    | none => rfl
    | some b =>
        dsimp only
        rw [List.foldl_cons, List.foldl_nil, List.foldl_cons, List.foldl_nil, h]

/-- C8, witness: a concrete table key is normalized, and ".PNG" and "png"
are processed identically as base suffixes. -/
theorem c8_witness :
    ((∀ ch ∈ ("png" : String).data, ¬(65 ≤ ch.toNat ∧ ch.toNat ≤ 90))
      ∧ ("png" : String).data.head? ≠ some '.')
    ∧ processModality [] [] "Text" ⟨some sampleBase, [".PNG"], []⟩
        = processModality [] [] "Text" ⟨some sampleBase, ["png"], []⟩ :=
  ⟨c8_normalized_everywhere.1 [] [("Text", ⟨some sampleBase, ["PNG"], []⟩)]
      ("png", mkEntry [] "Text" sampleBase "png") (by decide),
   c8_normalized_everywhere.2 [] [] "Text" (some sampleBase) [] ".PNG" "png" (by decide)⟩

/-- C9: the emitted import lines are exactly the sorted, deduplicated
import-table entries of the return types occurring in some modality's
resolved set; unmapped types contribute no line; and the lines sit between
the header and the class body. -/
theorem c9_import_lines (groups : List (String × List String)) :
    (∀ L, L ∈ importsNeeded groups
        ↔ ∃ t, (∃ p ∈ groups, t ∈ p.2) ∧ dictLookup TYPE_IMPORTS t = some L)
    ∧ (importsNeeded groups).Sorted (fun a b => strLe a b = true)
    ∧ (importsNeeded groups).Nodup
    ∧ stubLines groups
        = headerLines ++ importsNeeded groups ++ midLines
            ++ overloadLines groups ++ tailLines := by
  refine ⟨mem_importsNeeded groups, ?_, nodup_importsNeeded groups, rfl⟩
  unfold importsNeeded
  exact sortStrings_sorted _

/-- C9, witness: the image type contributes its import line. -/
theorem c9_witness :
    "from PIL.Image import Image as PILImage"
      ∈ importsNeeded [("Image", ["PIL.Image.Image"])] :=
  ((c9_import_lines [("Image", ["PIL.Image.Image"])]).1 _).mpr
    ⟨"PIL.Image.Image", ⟨("Image", ["PIL.Image.Image"]), by decide, by decide⟩, rfl⟩

/-- C10, counterexample: a record with base suffix "png", a null override
at key "png" and a second custom key ".PNG" normalizing to the same
suffix: the claim asserts the final table has no entry at "png", but the
second override writes one. -/
theorem c10_counterexample :
    recC10cex.base_handler = some sampleBase
    ∧ "png" ∈ recC10cex.base_suffixes
    ∧ ((normalizeSuffix "png", (none : Option Handler)) ∈ recC10cex.custom)
    ∧ dictLookup (collect_suffix_info [] [("M", recC10cex)]) (normalizeSuffix "png")
        = some (mkEntry [] "M" sampleCustom "png") := by
  refine ⟨rfl, by decide, by decide, by decide⟩

/-- C10 (amended): for a record with a truthy base handler and a base
suffix s whose custom mapping holds the key normalize(s) with a null
handler, and no other custom key normalizing to the same suffix, the table
produced from a registry holding that record alone has no entry at
normalize(s): the null override is skipped and also suppresses the base
entry, leaving the suffix unresolved. -/
theorem c10_null_override_suppresses (cs : List String) (md : String)
    (r : ModalityRecord) (b : Handler) (s : String)
    (hb : r.base_handler = some b)
    (hs : s ∈ r.base_suffixes)
    (hc : (normalizeSuffix s, (none : Option Handler)) ∈ r.custom)
    (hkeys : KeysNodup r.custom)
    (huniq : ∀ p ∈ r.custom,
      normalizeSuffix p.1 = normalizeSuffix s → p.1 = normalizeSuffix s) :
    dictLookup (collect_suffix_info cs [(md, r)]) (normalizeSuffix s) = none := by
  have hcol : collect_suffix_info cs [(md, r)] = processModality cs [] md r := rfl
  rw [hcol, lookup_processModality_nil]
  unfold modalityWrites
  rw [writesLookup_append]
  have hhk : dictHasKey r.custom (normalizeSuffix s) = true :=
    (dictHasKey_iff _ _).mpr (List.mem_map_of_mem Prod.fst hc)
  have hcust : writesLookup (normalizeSuffix s) (customWrites cs md r.custom) = none := by
    apply writesLookup_customWrites_none
    intro q hq hqs
    have hq1 : q.1 = normalizeSuffix s := huniq q hq hqs
    have hmem : (normalizeSuffix s, q.2) ∈ r.custom := by
      rw [← hq1]
      exact hq
    exact keysNodup_val_unique r.custom hkeys (normalizeSuffix s) q.2 none hmem hc
  rw [hcust]
  cases hbh : r.base_handler with
  | none => rfl
  | some b2 =>
      dsimp only
      rw [writesLookup_baseWrites_none cs md r.custom b2 r.base_suffixes _ hhk]
      rfl

/-- C10, witness: the null override alone suppresses the base entry. -/
theorem c10_witness :
    dictLookup (collect_suffix_info [] [("M", recC10)]) (normalizeSuffix "png") = none :=
  c10_null_override_suppresses [] "M" recC10 sampleBase "png" rfl (by decide) (by decide)
    (by unfold KeysNodup; decide) (by decide)

end StubGen
